import Mathlib

/-!
Shallow embedding of `src/rb.rs`: a bounded MPMC ring buffer
(`RingBuffer<T>`) with per-slot sequence numbers (`Cell.pos`), two
32-bit cursors (`enq_pos`, `deq_pos`) and a handle registry (`Users`).

Machine integers are modelled as `Nat` kept below `2^32` by explicit
`% u32size` at every store, matching Rust `u32` wrapping semantics;
the `i32` subtraction used for the `diff` tests is modelled by
`i32sub`, which wraps into `[-2^31, 2^31)` exactly as release-mode
`i32` subtraction does.

The source operations `send`/`recv`/`empty` are CAS-retry loops.  This
development gives their single-thread (sequential) semantics: with no
concurrent writer, the cursor cannot change between its load and the
CAS, so the weak CAS taken in the `diff == 0` branch succeeds (each
terminating execution takes it), and in the `diff > 0` branch the
reloaded cursor equals the value already held, so the loop repeats the
very same iteration forever.  Hence each operation either returns from
its first iteration or diverges; divergence (and the panic on an
out-of-bounds index) is modelled as `none`.
-/

/-- The modulus of Rust `u32` arithmetic, `2^32`. -/
def u32size : Nat := 4294967296

/-- The boundary between nonnegative and negative `i32` values, `2^31`. -/
def i32half : Nat := 2147483648

/-- Value of `x as i32` for a `u32` value `x` (two's-complement reinterpretation). -/
def i32ofU32 (a : Nat) : Int := if a < i32half then (a : Int) else (a : Int) - (u32size : Int)

/-- Wrap an integer into the `i32` range `[-2^31, 2^31)` (release-mode overflow). -/
def i32wrap (z : Int) : Int := (z + (i32half : Int)) % (u32size : Int) - (i32half : Int)

/-- The expression `a as i32 - b as i32` on `u32` values `a`, `b`, with
the `i32` subtraction wrapping on overflow. -/
def i32sub (a b : Nat) : Int := i32wrap (i32ofU32 a - i32ofU32 b)

/-- One slot of the ring: sequence counter `pos` (a `u32`) and payload `data`. -/
structure Cell (T : Type) where
  pos : Nat
  data : T
  deriving Repr, DecidableEq

/-- Rust `Cell::new(i)`: sequence starts at `i`, payload at `T::default()`. -/
def Cell.new {T : Type} [Inhabited T] (i : Nat) : Cell T :=
  { pos := i, data := default }

/-- The handle registry: live sender and receiver counts. -/
structure Users where
  senders : Nat
  receivers : Nat
  deriving Repr, DecidableEq

/-- Rust `Users::new(s, r)`. -/
def Users.new (s r : Nat) : Users :=
  { senders := s, receivers := r }

/-- The ring buffer state: index mask `n` (= slot count − 1), slot
vector `v`, the two cursors, and the handle registry. -/
structure RingBuffer (T : Type) where
  n : Nat
  v : List (Cell T)
  enq_pos : Nat
  deq_pos : Nat
  users : Users
  deriving Repr, DecidableEq

namespace RingBuffer

variable {T : Type}

/-- Rust `RingBuffer::new(c)`: panics (`none`) when `c = 0`; otherwise
allocates `N = nextPowerOfTwo (c+1)` slots, slot `i` carrying sequence
`i as u32`, stores the mask `N - 1` in `n`, zeroes both cursors and
starts the registry at one sender and one receiver.  (The Rust
function also returns the `Sender`/`Receiver` handles; they are bare
aliases of the buffer and carry no state of their own.) -/
def new [Inhabited T] (c : Nat) : Option (RingBuffer T) :=
  if 0 < c then
    let n := Nat.nextPowerOfTwo (c + 1)
    some { n := n - 1
         , v := (List.range n).map (fun i => Cell.new (i % u32size))
         , enq_pos := 0
         , deq_pos := 0
         , users := Users.new 1 1 }
  else
    none

/-- Rust `RingBuffer::capacity`: returns the stored mask `n` (= N − 1). -/
def capacity (rb : RingBuffer T) : Nat := rb.n

/-- Rust `RingBuffer::send` (sequential semantics, see the header comment):
index `pos & n`, load the slot's sequence, form the wrapping `i32`
difference `seq - pos`; on `0` the CAS claims the position, the value
is written and the sequence released as `pos + 1`; on negative the
buffer is full and `false` is returned with the state untouched; on
positive the loop would spin forever (`none`). -/
def send (rb : RingBuffer T) (d : T) : Option (Bool × RingBuffer T) :=
  let pos := rb.enq_pos
  match rb.v[pos &&& rb.n]? with
  | none => none
  | some cell =>
    let seq := cell.pos
    let diff := i32sub seq pos
    if diff = 0 then
      let new := (pos + 1) % u32size
      some (true, { rb with
        v := rb.v.set (pos &&& rb.n) { pos := new, data := d }
        , enq_pos := new })
    else if diff < 0 then
      some (false, rb)
    else
      none

/-- Rust `RingBuffer::recv` (sequential semantics): index `pos & n`, load
the sequence, form the wrapping difference `seq - (pos + 1)`; on `0`
the CAS claims the position, the payload is read out and the sequence
released as `pos + n + 1` (with `n as u32` truncation); on negative
the buffer is empty and `Err(false)` is returned with the state
untouched; on positive the loop would spin forever (`none`). -/
def recv (rb : RingBuffer T) : Option (Except Bool T × RingBuffer T) :=
  let pos := rb.deq_pos
  match rb.v[pos &&& rb.n]? with
  | none => none
  | some cell =>
    let seq := cell.pos
    let diff := i32sub seq ((pos + 1) % u32size)
    if diff = 0 then
      let new := (pos + 1) % u32size
      let d := cell.data
      some (Except.ok d, { rb with
        v := rb.v.set (pos &&& rb.n) { cell with pos := (pos + rb.n % u32size + 1) % u32size }
        , deq_pos := new })
    else if diff < 0 then
      some (Except.error false, rb)
    else
      none

/-- Rust `RingBuffer::empty` (sequential semantics): the read-only probe at
`deq_pos` — `false` when the difference is zero (a value is
published), `true` when it is negative, spin (`none`) otherwise. -/
def empty (rb : RingBuffer T) : Option Bool :=
  let pos := rb.deq_pos
  match rb.v[pos &&& rb.n]? with
  | none => none
  | some cell =>
    let seq := cell.pos
    let diff := i32sub seq ((pos + 1) % u32size)
    if diff = 0 then
      some false
    else if diff < 0 then
      some true
    else
      none

/-- Rust `Clone for Sender`: asserts the live-sender count is positive
(panic = `none`), then increments it. -/
def cloneSender (rb : RingBuffer T) : Option (RingBuffer T) :=
  if 0 < rb.users.senders then
    some { rb with users := { rb.users with senders := rb.users.senders + 1 } }
  else
    none

/-- Rust `Clone for Receiver`: asserts the live-receiver count is positive
(panic = `none`), then increments it. -/
def cloneReceiver (rb : RingBuffer T) : Option (RingBuffer T) :=
  if 0 < rb.users.receivers then
    some { rb with users := { rb.users with receivers := rb.users.receivers + 1 } }
  else
    none

/-- Rust `Drop for Sender`: asserts the live-sender count is positive
(panic = `none`), then decrements it. -/
def dropSender (rb : RingBuffer T) : Option (RingBuffer T) :=
  if 0 < rb.users.senders then
    some { rb with users := { rb.users with senders := rb.users.senders - 1 } }
  else
    none

/-- Rust `Drop for Receiver`: asserts the live-receiver count is positive
(panic = `none`), then decrements it. -/
def dropReceiver (rb : RingBuffer T) : Option (RingBuffer T) :=
  if 0 < rb.users.receivers then
    some { rb with users := { rb.users with receivers := rb.users.receivers - 1 } }
  else
    none

/-- Rust `Drop for RingBuffer`: asserts both registry counters are zero
(panic = `none`) and releases the buffer. -/
def dropBuffer (rb : RingBuffer T) : Option Unit :=
  if rb.users.senders = 0 then
    if rb.users.receivers = 0 then some ()
    else none
  else
    none

end RingBuffer

/-- The single-producer/single-consumer order test of the spec, run
from a given start state: four sends of `10,20,30,40`, four receives,
then `empty`; collects every boolean and received value. -/
def orderTest (rb0 : RingBuffer Nat) :
    Option (Bool × Bool × Bool × Bool × Nat × Nat × Nat × Nat × Bool) := do
  let (b1, rb1) ← rb0.send 10
  let (b2, rb2) ← rb1.send 20
  let (b3, rb3) ← rb2.send 30
  let (b4, rb4) ← rb3.send 40
  let (r1, rb5) ← rb4.recv
  let (r2, rb6) ← rb5.recv
  let (r3, rb7) ← rb6.recv
  let (r4, rb8) ← rb7.recv
  let x1 ← r1.toOption
  let x2 ← r2.toOption
  let x3 ← r3.toOption
  let x4 ← r4.toOption
  let e ← rb8.empty
  pure (b1, b2, b3, b4, x1, x2, x3, x4, e)

/-- The fill test of the spec, run from a given start state: four
sends with distinct values, a fifth send, one receive, then one more
send; collects every send result and whether the receive succeeded. -/
def fillTest (rb0 : RingBuffer Nat) :
    Option (Bool × Bool × Bool × Bool × Bool × Bool × Bool) := do
  let (b1, rb1) ← rb0.send 1
  let (b2, rb2) ← rb1.send 2
  let (b3, rb3) ← rb2.send 3
  let (b4, rb4) ← rb3.send 4
  let (b5, rb5) ← rb4.send 5
  let (r, rb6) ← rb5.recv
  let (b6, _rb7) ← rb6.send 6
  pure (b1, b2, b3, b4, b5, r.toBool, b6)

/-- The sequence number currently stored in slot `i`, if `i` is in range. -/
def slotSeq {T : Type} (rb : RingBuffer T) (i : Nat) : Option Nat :=
  (rb.v[i]?).map Cell.pos

/-- The states reachable from `RingBuffer::new c` by any sequence of
`send` and `recv` calls (`empty` and `capacity` never modify the
state, so they do not contribute transitions). -/
inductive Reachable {T : Type} [Inhabited T] (c : Nat) : RingBuffer T → Prop
  | init (rb : RingBuffer T) :
      RingBuffer.new (T := T) c = some rb → Reachable c rb
  | send (rb : RingBuffer T) (d : T) (b : Bool) (rb' : RingBuffer T) :
      Reachable c rb → rb.send d = some (b, rb') → Reachable c rb'
  | recv (rb : RingBuffer T) (r : Except Bool T) (rb' : RingBuffer T) :
      Reachable c rb → rb.recv = some (r, rb') → Reachable c rb'

/-- The sequential inductive invariant of the ring: writing
`N = n + 1` for the slot count and `d = deq_pos`, there are `j`
published values (`0 ≤ j ≤ N`); the enqueue cursor sits `j` positions
past the dequeue cursor (mod `2^32`); for `k < j` the slot owned by
absolute position `d + k` is published (sequence `d + k + 1`), and for
`j ≤ k < N` it is free (sequence `d + k`). -/
def RingInv {T : Type} (rb : RingBuffer T) : Prop :=
  ∃ j, j ≤ rb.n + 1 ∧
    rb.v.length = rb.n + 1 ∧
    1 ≤ rb.n ∧
    (rb.n + 1) ∣ u32size ∧
    (∀ x : Nat, x &&& rb.n = x % (rb.n + 1)) ∧
    rb.deq_pos < u32size ∧
    rb.enq_pos = (rb.deq_pos + j) % u32size ∧
    ∀ k, k < rb.n + 1 →
      slotSeq rb ((rb.deq_pos + k) % (rb.n + 1)) =
        some (if k < j then (rb.deq_pos + k + 1) % u32size
              else (rb.deq_pos + k) % u32size)

/-! ### Interleaved concurrent model of the claim/publish protocol (C10)

The sequential embedding above fixes one thread; claim C10 is about
racing threads.  Here `send`/`recv` are broken into their atomic
accesses exactly as the source performs them (cursor load; sequence
load plus branch; CAS on the cursor, which may also fail spuriously —
`compare_exchange_weak`; payload write; sequence release store), and
any number of producer and consumer threads are interleaved.  Two
ghost counters `genq`/`gdeq` count successful CASes: the ghost value
at the moment a CAS succeeds is the *absolute position* the operation
claims (the cursor itself is its value modulo `2^32`).  Claim events
are recorded as trace labels. -/

namespace Concurrent

/-- Local state of one producer thread inside `send d`, by program
point: about to load the cursor; holding `pos`, about to load the
slot's sequence and branch on `diff`; about to CAS; CAS won, about to
write the payload; payload written, about to release the sequence;
returned. -/
inductive PState (T : Type) where
  | atLoad (d : T)
  | atIter (d : T) (pos : Nat)
  | atCas (d : T) (pos : Nat)
  | atWrite (d : T) (pos : Nat)
  | atStore (d : T) (pos : Nat)
  | retired (b : Bool)

/-- Local state of one consumer thread inside `recv`, by program point. -/
inductive CState (T : Type) where
  | atLoad
  | atIter (pos : Nat)
  | atCas (pos : Nat)
  | atRead (pos : Nat)
  | atStore (pos : Nat) (d : T)
  | retired (r : Except Bool T)

/-- Trace labels: a successful CAS on `enq_pos` (`sendClaim`) or on
`deq_pos` (`recvClaim`) by thread `tid`, claiming absolute position
`abs`; every other atomic access is `tau`. -/
inductive Label where
  | sendClaim (tid : Nat) (abs : Nat)
  | recvClaim (tid : Nat) (abs : Nat)
  | tau
  deriving DecidableEq

/-- Whole-system state: the shared ring (as in `RingBuffer`, minus the
registry, which plays no part in the data path), the two ghost
absolute counters, and the local state of every producer/consumer
thread (by thread id; `none` = no such thread). -/
structure Sys (T : Type) where
  n : Nat
  v : List (Cell T)
  enq_pos : Nat
  deq_pos : Nat
  genq : Nat
  gdeq : Nat
  prod : Nat → Option (PState T)
  cons : Nat → Option (CState T)

/-- One atomic step of one thread, interleaving semantics. -/
inductive Step {T : Type} : Sys T → Label → Sys T → Prop where
  | pLoad (s : Sys T) (tid : Nat) (d : T) :
      s.prod tid = some (.atLoad d) →
      Step s .tau { s with
        prod := fun t => if t = tid then some (.atIter d s.enq_pos) else s.prod t }
  | pSeqZero (s : Sys T) (tid : Nat) (d : T) (pos : Nat) (cell : Cell T) :
      s.prod tid = some (.atIter d pos) →
      s.v[pos &&& s.n]? = some cell →
      i32sub cell.pos pos = 0 →
      Step s .tau { s with
        prod := fun t => if t = tid then some (.atCas d pos) else s.prod t }
  | pSeqNeg (s : Sys T) (tid : Nat) (d : T) (pos : Nat) (cell : Cell T) :
      s.prod tid = some (.atIter d pos) →
      s.v[pos &&& s.n]? = some cell →
      i32sub cell.pos pos < 0 →
      Step s .tau { s with
        prod := fun t => if t = tid then some (.retired false) else s.prod t }
  | pSeqPos (s : Sys T) (tid : Nat) (d : T) (pos : Nat) (cell : Cell T) :
      s.prod tid = some (.atIter d pos) →
      s.v[pos &&& s.n]? = some cell →
      0 < i32sub cell.pos pos →
      Step s .tau { s with
        prod := fun t => if t = tid then some (.atIter d s.enq_pos) else s.prod t }
  | pCasOk (s : Sys T) (tid : Nat) (d : T) (pos : Nat) :
      s.prod tid = some (.atCas d pos) →
      s.enq_pos = pos →
      Step s (.sendClaim tid s.genq) { s with
        enq_pos := (pos + 1) % u32size
        , genq := s.genq + 1
        , prod := fun t => if t = tid then some (.atWrite d pos) else s.prod t }
  | pCasFail (s : Sys T) (tid : Nat) (d : T) (pos : Nat) :
      s.prod tid = some (.atCas d pos) →
      Step s .tau { s with
        prod := fun t => if t = tid then some (.atIter d pos) else s.prod t }
  | pWrite (s : Sys T) (tid : Nat) (d : T) (pos : Nat) (cell : Cell T) :
      s.prod tid = some (.atWrite d pos) →
      s.v[pos &&& s.n]? = some cell →
      Step s .tau { s with
        v := s.v.set (pos &&& s.n) ⟨cell.pos, d⟩
        , prod := fun t => if t = tid then some (.atStore d pos) else s.prod t }
  | pStore (s : Sys T) (tid : Nat) (d : T) (pos : Nat) (cell : Cell T) :
      s.prod tid = some (.atStore d pos) →
      s.v[pos &&& s.n]? = some cell →
      Step s .tau { s with
        v := s.v.set (pos &&& s.n) ⟨(pos + 1) % u32size, cell.data⟩
        , prod := fun t => if t = tid then some (.retired true) else s.prod t }
  | cLoad (s : Sys T) (tid : Nat) :
      s.cons tid = some .atLoad →
      Step s .tau { s with
        cons := fun t => if t = tid then some (.atIter s.deq_pos) else s.cons t }
  | cSeqZero (s : Sys T) (tid : Nat) (pos : Nat) (cell : Cell T) :
      s.cons tid = some (.atIter pos) →
      s.v[pos &&& s.n]? = some cell →
      i32sub cell.pos ((pos + 1) % u32size) = 0 →
      Step s .tau { s with
        cons := fun t => if t = tid then some (.atCas pos) else s.cons t }
  | cSeqNeg (s : Sys T) (tid : Nat) (pos : Nat) (cell : Cell T) :
      s.cons tid = some (.atIter pos) →
      s.v[pos &&& s.n]? = some cell →
      i32sub cell.pos ((pos + 1) % u32size) < 0 →
      Step s .tau { s with
        cons := fun t => if t = tid then some (.retired (Except.error false)) else s.cons t }
  | cSeqPos (s : Sys T) (tid : Nat) (pos : Nat) (cell : Cell T) :
      s.cons tid = some (.atIter pos) →
      s.v[pos &&& s.n]? = some cell →
      0 < i32sub cell.pos ((pos + 1) % u32size) →
      Step s .tau { s with
        cons := fun t => if t = tid then some (.atIter s.deq_pos) else s.cons t }
  | cCasOk (s : Sys T) (tid : Nat) (pos : Nat) :
      s.cons tid = some (.atCas pos) →
      s.deq_pos = pos →
      Step s (.recvClaim tid s.gdeq) { s with
        deq_pos := (pos + 1) % u32size
        , gdeq := s.gdeq + 1
        , cons := fun t => if t = tid then some (.atRead pos) else s.cons t }
  | cCasFail (s : Sys T) (tid : Nat) (pos : Nat) :
      s.cons tid = some (.atCas pos) →
      Step s .tau { s with
        cons := fun t => if t = tid then some (.atIter pos) else s.cons t }
  | cRead (s : Sys T) (tid : Nat) (pos : Nat) (cell : Cell T) :
      s.cons tid = some (.atRead pos) →
      s.v[pos &&& s.n]? = some cell →
      Step s .tau { s with
        cons := fun t => if t = tid then some (.atStore pos cell.data) else s.cons t }
  | cStore (s : Sys T) (tid : Nat) (pos : Nat) (d : T) (cell : Cell T) :
      s.cons tid = some (.atStore pos d) →
      s.v[pos &&& s.n]? = some cell →
      Step s .tau { s with
        v := s.v.set (pos &&& s.n) ⟨(pos + s.n % u32size + 1) % u32size, cell.data⟩
        , cons := fun t => if t = tid then some (.retired (Except.ok d)) else s.cons t }

/-- A finite interleaved execution recording its labels. -/
inductive Trace {T : Type} : Sys T → List Label → Sys T → Prop where
  | nil (s : Sys T) : Trace s [] s
  | cons (s s' s'' : Sys T) (l : Label) (ls : List Label) :
      Step s l s' → Trace s' ls s'' → Trace s (l :: ls) s''

/-- The absolute positions claimed by successful enqueue CASes in a trace. -/
def sendClaims (ls : List Label) : List Nat :=
  ls.filterMap fun l =>
    match l with
    | .sendClaim _ a => some a
    | _ => none

/-- The absolute positions claimed by successful dequeue CASes in a trace. -/
def recvClaims (ls : List Label) : List Nat :=
  ls.filterMap fun l =>
    match l with
    | .recvClaim _ a => some a
    | _ => none

end Concurrent

/-! ### Concrete evaluation helpers

`Nat.nextPowerOfTwo` is defined by well-founded recursion and does not
reduce in the kernel, so concrete instances are established once by
unfolding and then reused. -/

theorem nextPowerOfTwo_four : Nat.nextPowerOfTwo 4 = 4 := by
  unfold Nat.nextPowerOfTwo
  unfold Nat.nextPowerOfTwo.go
  norm_num
  unfold Nat.nextPowerOfTwo.go
  norm_num
  unfold Nat.nextPowerOfTwo.go
  norm_num

/-- The buffer produced by `RingBuffer::new(3)`: four slots with
sequences `0,1,2,3`, mask `3`, cursors at `0`, registry `(1,1)`. -/
theorem new_three_eq :
    RingBuffer.new (T := Nat) 3 =
      some ⟨3, [⟨0, 0⟩, ⟨1, 0⟩, ⟨2, 0⟩, ⟨3, 0⟩], 0, 0, ⟨1, 1⟩⟩ := by
  rw [RingBuffer.new, nextPowerOfTwo_four]
  rfl

/-- C1: from a freshly created buffer, `send(10); send(20); send(30);
send(40)` all succeed, the four following `recv()` calls return
`10, 20, 30, 40` in that exact order, and `empty()` is `true`
afterwards. -/
theorem order_test_sp_sc :
    (RingBuffer.new (T := Nat) 3).bind orderTest =
      some (true, true, true, true, 10, 20, 30, 40, true) := by
  rw [new_three_eq]
  rfl

/-- C2: with requested capacity 3 (so N = 4 slots), four consecutive
sends with distinct values all return `true`, a fifth send immediately
after returns `false`, and after one successful `recv` a subsequent
send returns `true` again. -/
theorem fill_test_capacity3 :
    (RingBuffer.new (T := Nat) 3).bind fillTest =
      some (true, true, true, true, false, true, true) := by
  rw [new_three_eq]
  rfl

/-- C3: for every requested capacity `c > 0`, construction succeeds
with slot count `N = nextPowerOfTwo (c+1)`, slot `i` starting with
sequence `i` (as a `u32`, i.e. `i % 2^32`; equal to `i` for every
`i < 2^32`), both cursors at `0`, and `capacity()` returning the
stored index mask `N - 1`, not `N`; in particular for `c = 3`,
`capacity()` returns `3`. -/
theorem construction_sizing (c : Nat) (hc : 0 < c) :
    ∃ rb : RingBuffer Nat,
      RingBuffer.new (T := Nat) c = some rb ∧
      rb.v.length = Nat.nextPowerOfTwo (c + 1) ∧
      (∀ i, (h : i < rb.v.length) → (rb.v[i]).pos = i % u32size) ∧
      rb.enq_pos = 0 ∧ rb.deq_pos = 0 ∧
      rb.capacity = Nat.nextPowerOfTwo (c + 1) - 1 ∧
      (c = 3 → rb.capacity = 3) := by
  simp only [RingBuffer.new, if_pos hc]
  refine ⟨_, rfl, ?_, ?_, rfl, rfl, rfl, ?_⟩
  · simp
  · intro i h
    simp [Cell.new]
  · intro h3
    subst h3
    show Nat.nextPowerOfTwo 4 - 1 = 3
    rw [nextPowerOfTwo_four]

/-- Witness for C3 at the concrete capacity `c = 3`. -/
theorem construction_sizing_witness :
    0 < 3 ∧
    ∃ rb : RingBuffer Nat,
      RingBuffer.new (T := Nat) 3 = some rb ∧
      rb.v.length = Nat.nextPowerOfTwo (3 + 1) ∧
      (∀ i, (h : i < rb.v.length) → (rb.v[i]).pos = i % u32size) ∧
      rb.enq_pos = 0 ∧ rb.deq_pos = 0 ∧
      rb.capacity = Nat.nextPowerOfTwo (3 + 1) - 1 ∧
      (3 = 3 → rb.capacity = 3) :=
  ⟨by decide, construction_sizing 3 (by decide)⟩

/-- C4: every successful `recv` at absolute position `pos = deq_pos`
rewrites the sequence of the slot it consumed to `pos + N` (as a
`u32`), `N` being the slot count, marking the slot free for the
producer that will next target absolute position `pos + N`. -/
theorem recv_marks_slot_free {T : Type} (rb : RingBuffer T) (x : T)
    (rb' : RingBuffer T)
    (hlen : rb.v.length = rb.n + 1)
    (h : rb.recv = some (Except.ok x, rb')) :
    (rb'.v[rb.deq_pos &&& rb.n]?).map Cell.pos =
      some ((rb.deq_pos + rb.v.length) % u32size) := by
  simp only [RingBuffer.recv] at h
  cases hget : rb.v[rb.deq_pos &&& rb.n]? with
  | none => rw [hget] at h; exact absurd h (by simp)
  | some cell =>
    rw [hget] at h
    simp only [] at h
    split_ifs at h with h0 h1
    · simp only [Option.some.injEq, Prod.mk.injEq] at h
      obtain ⟨-, hrb'⟩ := h
      subst hrb'
      have hidx : rb.deq_pos &&& rb.n < rb.v.length := by
        have := Nat.and_le_right (n := rb.deq_pos) (m := rb.n)
        omega
      simp only [List.getElem?_set_eq_of_lt _ hidx]
      have : (rb.deq_pos + rb.n % u32size + 1) % u32size =
          (rb.deq_pos + rb.v.length) % u32size := by
        rw [hlen]
        unfold u32size
        omega
      simp [this]
    · simp at h

/-- Witness for C4: on the buffer holding one sent value `10`,
`recv` succeeds and rewrites the consumed slot's sequence to
`deq_pos + N = 0 + 4`. -/
theorem recv_marks_slot_free_witness :
    ((⟨3, [⟨1, 10⟩, ⟨1, 0⟩, ⟨2, 0⟩, ⟨3, 0⟩], 1, 0, ⟨1, 1⟩⟩ : RingBuffer Nat).v.length =
      (⟨3, [⟨1, 10⟩, ⟨1, 0⟩, ⟨2, 0⟩, ⟨3, 0⟩], 1, 0, ⟨1, 1⟩⟩ : RingBuffer Nat).n + 1) ∧
    (((⟨3, [⟨4, 10⟩, ⟨1, 0⟩, ⟨2, 0⟩, ⟨3, 0⟩], 1, 1, ⟨1, 1⟩⟩ : RingBuffer Nat).v[0]?).map
      Cell.pos = some 4) :=
  ⟨rfl, recv_marks_slot_free
    (⟨3, [⟨1, 10⟩, ⟨1, 0⟩, ⟨2, 0⟩, ⟨3, 0⟩], 1, 0, ⟨1, 1⟩⟩ : RingBuffer Nat) 10
    (⟨3, [⟨4, 10⟩, ⟨1, 0⟩, ⟨2, 0⟩, ⟨3, 0⟩], 1, 1, ⟨1, 1⟩⟩ : RingBuffer Nat) rfl rfl⟩

/-- C5: full-on-send and empty-on-recv are ordinary value returns.
When the slot at the enqueue position has negative signed sequence
difference, `send` returns `false` and the whole state is unchanged;
when the slot at the dequeue position has negative difference, `recv`
returns `Err(false)` and the whole state is unchanged. -/
theorem failure_is_nonfatal_and_pure {T : Type} (rb : RingBuffer T) (d : T)
    (cs cr : Cell T) :
    (rb.v[rb.enq_pos &&& rb.n]? = some cs →
      i32sub cs.pos rb.enq_pos < 0 →
      rb.send d = some (false, rb)) ∧
    (rb.v[rb.deq_pos &&& rb.n]? = some cr →
      i32sub cr.pos ((rb.deq_pos + 1) % u32size) < 0 →
      rb.recv = some (Except.error false, rb)) := by
  constructor
  · intro hget hneg
    simp only [RingBuffer.send, hget]
    rw [if_neg (by omega : ¬ i32sub cs.pos rb.enq_pos = 0), if_pos hneg]
  · intro hget hneg
    simp only [RingBuffer.recv, hget]
    rw [if_neg (by omega : ¬ i32sub cr.pos ((rb.deq_pos + 1) % u32size) = 0), if_pos hneg]

/-- Witness for C5: a state in which the send position and the recv
position both carry a negative difference; both failures return their
value and leave the state intact. -/
theorem failure_is_nonfatal_and_pure_witness :
    (RingBuffer.send (⟨3, [⟨0, 0⟩, ⟨0, 0⟩, ⟨0, 0⟩, ⟨0, 0⟩], 1, 0, ⟨1, 1⟩⟩ : RingBuffer Nat) 7 =
      some (false, (⟨3, [⟨0, 0⟩, ⟨0, 0⟩, ⟨0, 0⟩, ⟨0, 0⟩], 1, 0, ⟨1, 1⟩⟩ : RingBuffer Nat))) ∧
    (RingBuffer.recv (⟨3, [⟨0, 0⟩, ⟨0, 0⟩, ⟨0, 0⟩, ⟨0, 0⟩], 1, 0, ⟨1, 1⟩⟩ : RingBuffer Nat) =
      some (Except.error false,
        (⟨3, [⟨0, 0⟩, ⟨0, 0⟩, ⟨0, 0⟩, ⟨0, 0⟩], 1, 0, ⟨1, 1⟩⟩ : RingBuffer Nat))) :=
  ⟨(failure_is_nonfatal_and_pure
      (⟨3, [⟨0, 0⟩, ⟨0, 0⟩, ⟨0, 0⟩, ⟨0, 0⟩], 1, 0, ⟨1, 1⟩⟩ : RingBuffer Nat) 7
      ⟨0, 0⟩ ⟨0, 0⟩).1 rfl (by decide),
   (failure_is_nonfatal_and_pure
      (⟨3, [⟨0, 0⟩, ⟨0, 0⟩, ⟨0, 0⟩, ⟨0, 0⟩], 1, 0, ⟨1, 1⟩⟩ : RingBuffer Nat) 7
      ⟨0, 0⟩ ⟨0, 0⟩).2 rfl (by decide)⟩

/-- Reflexivity of the wrapping difference: `i32sub a a = 0`. -/
theorem i32sub_self (a : Nat) : i32sub a a = 0 := by
  simp [i32sub, i32wrap]
  norm_num [i32half, u32size]

/-- C6: round-trip identity.  If `send x` succeeds from state `rb`
(claiming absolute position `rb.enq_pos`), then for any later state
`rb₂` whose dequeue cursor has reached that position and whose slot at
that position is still as `send` left it, `recv` succeeds and returns
exactly `x`. -/
theorem send_recv_round_trip {T : Type} (rb rb₁ rb₂ : RingBuffer T) (x : T)
    (hsend : rb.send x = some (true, rb₁))
    (hn : rb₂.n = rb.n)
    (hpos : rb₂.deq_pos = rb.enq_pos)
    (hcell : rb₂.v[rb₂.deq_pos &&& rb₂.n]? = rb₁.v[rb.enq_pos &&& rb.n]?) :
    ∃ rb₃, rb₂.recv = some (Except.ok x, rb₃) := by
  simp only [RingBuffer.send] at hsend
  cases hget : rb.v[rb.enq_pos &&& rb.n]? with
  | none => rw [hget] at hsend; exact absurd hsend (by simp)
  | some cell =>
    rw [hget] at hsend
    simp only [] at hsend
    split_ifs at hsend with h0 h1
    · simp only [Option.some.injEq, Prod.mk.injEq, true_and] at hsend
      subst hsend
      have hidx : rb.enq_pos &&& rb.n < rb.v.length := by
        by_contra hge
        rw [List.getElem?_eq_none (by omega)] at hget
        exact absurd hget (by simp)
      rw [hpos, hn] at hcell
      simp only [] at hcell
      rw [List.getElem?_set_eq_of_lt _ hidx] at hcell
      refine ⟨?_, ?_⟩
      case _ => exact { rb₂ with
        v := rb₂.v.set (rb.enq_pos &&& rb.n)
          ⟨(rb.enq_pos + (rb.n % u32size) + 1) % u32size, x⟩
        , deq_pos := (rb.enq_pos + 1) % u32size }
      simp only [RingBuffer.recv, hpos, hn, hcell]
      rw [if_pos (i32sub_self _)]
    · exact absurd hsend (by simp)

/-- Witness for C6: sending `42` into a fresh buffer and receiving it
back returns exactly `42`. -/
theorem send_recv_round_trip_witness :
    ∃ rb₃, RingBuffer.recv
        (⟨3, [⟨1, 42⟩, ⟨1, 0⟩, ⟨2, 0⟩, ⟨3, 0⟩], 1, 0, ⟨1, 1⟩⟩ : RingBuffer Nat) =
      some (Except.ok 42, rb₃) :=
  send_recv_round_trip
    (⟨3, [⟨0, 0⟩, ⟨1, 0⟩, ⟨2, 0⟩, ⟨3, 0⟩], 0, 0, ⟨1, 1⟩⟩ : RingBuffer Nat)
    (⟨3, [⟨1, 42⟩, ⟨1, 0⟩, ⟨2, 0⟩, ⟨3, 0⟩], 1, 0, ⟨1, 1⟩⟩ : RingBuffer Nat)
    (⟨3, [⟨1, 42⟩, ⟨1, 0⟩, ⟨2, 0⟩, ⟨3, 0⟩], 1, 0, ⟨1, 1⟩⟩ : RingBuffer Nat)
    42 rfl rfl rfl rfl

/-- C7: programming-contract violations are fatal (modelled as `none`,
never a silent value): construction with capacity `0` panics; cloning
or dropping a handle whose registry counter is already zero panics;
dropping the buffer succeeds exactly when both counters are zero, and
panics whenever any handle is still live. -/
theorem contract_violations_are_fatal {T : Type} [Inhabited T] (rb : RingBuffer T) :
    RingBuffer.new (T := T) 0 = none ∧
    (rb.cloneSender = none ↔ rb.users.senders = 0) ∧
    (rb.cloneReceiver = none ↔ rb.users.receivers = 0) ∧
    (rb.dropSender = none ↔ rb.users.senders = 0) ∧
    (rb.dropReceiver = none ↔ rb.users.receivers = 0) ∧
    (rb.dropBuffer = none ↔ rb.users.senders ≠ 0 ∨ rb.users.receivers ≠ 0) := by
  refine ⟨rfl, ?_, ?_, ?_, ?_, ?_⟩ <;>
    simp only [RingBuffer.cloneSender, RingBuffer.cloneReceiver,
      RingBuffer.dropSender, RingBuffer.dropReceiver, RingBuffer.dropBuffer] <;>
    split_ifs <;> simp_all <;> omega

/-- The wrapping `i32` subtraction of two `u32` values equals the
two's-complement (signed) reinterpretation of their unsigned
(wraparound) difference. -/
theorem i32sub_eq_unsigned (a b : Nat) (ha : a < u32size) (hb : b < u32size) :
    i32sub a b = i32ofU32 ((a + u32size - b) % u32size) := by
  unfold i32sub i32wrap i32ofU32 u32size i32half at *
  split_ifs <;> omega

/-- C8: for every pair of `u32` values `seq` and `pos`, the `diff`
computed by `send` (`seq as i32 - pos as i32`) and by `recv`
(`seq as i32 - (pos+1) as i32`), overflow taken modulo `2^32`, equals
the signed interpretation of the unsigned difference `seq - pos`
(respectively `seq - (pos+1)`) modulo `2^32`, so full/empty detection
is wraparound-correct. -/
theorem wraparound_diff_eq_signed_unsigned (seq pos : Nat)
    (hseq : seq < u32size) (hpos : pos < u32size) :
    i32sub seq pos = i32ofU32 ((seq + u32size - pos) % u32size) ∧
    i32sub seq ((pos + 1) % u32size) =
      i32ofU32 ((seq + u32size - (pos + 1) % u32size) % u32size) :=
  ⟨i32sub_eq_unsigned seq pos hseq hpos,
   i32sub_eq_unsigned seq ((pos + 1) % u32size) hseq
     (Nat.mod_lt _ (by unfold u32size; omega))⟩

/-- Witness for C8 at `seq = 5`, `pos = 2^32 - 1` (a wraparound pair). -/
theorem wraparound_diff_witness :
    i32sub 5 4294967295 = i32ofU32 ((5 + u32size - 4294967295) % u32size) ∧
    i32sub 5 ((4294967295 + 1) % u32size) =
      i32ofU32 ((5 + u32size - (4294967295 + 1) % u32size) % u32size) :=
  wraparound_diff_eq_signed_unsigned 5 4294967295 (by decide) (by decide)

/-! ### Infrastructure for the reachable-state invariant (C9) -/

/-- Masking with `2^k - 1` is reduction modulo `2^k`; this is how the
code's `pos & n` computes `pos mod N`. -/
theorem land_mask (x k : Nat) : x &&& (2 ^ k - 1) = x % 2 ^ k := by
  apply Nat.eq_of_testBit_eq
  intro i
  simp [Nat.testBit_and, Nat.testBit_two_pow_sub_one, Nat.testBit_mod_two_pow, Bool.and_comm]

/-- The wrapping `i32` difference of two `u32` values vanishes exactly
on equal values. -/
theorem i32sub_eq_zero_iff {a b : Nat} (ha : a < u32size) (hb : b < u32size) :
    i32sub a b = 0 ↔ a = b := by
  unfold i32sub i32wrap i32ofU32 u32size i32half at *
  constructor
  · intro h
    split_ifs at h <;> omega
  · intro h
    subst h
    split_ifs <;> omega

/-- Reducing an argument modulo a multiple of the modulus first does
not change a sum's residue. -/
theorem addl_mod_mod (x y M N : Nat) (h : N ∣ M) : (x % M + y) % N = (x + y) % N := by
  rw [Nat.add_mod (x % M) y N, Nat.mod_mod_of_dvd x h, ← Nat.add_mod x y N]

/-- Two offsets below the modulus with equal shifted residues are equal. -/
theorem add_mod_inj_of_lt {N d j k : Nat} (hj : j < N) (hk : k < N)
    (h : (d + j) % N = (d + k) % N) : j = k := by
  have h2 : j % N = k % N := Nat.ModEq.add_left_cancel' d h
  rwa [Nat.mod_eq_of_lt hj, Nat.mod_eq_of_lt hk] at h2

/-- The helper `nextPowerOfTwo.go` never returns less than the target `n`. -/
theorem nextPowerOfTwo_go_ge (n power : Nat) (h : 0 < power) :
    n ≤ Nat.nextPowerOfTwo.go n power h := by
  unfold Nat.nextPowerOfTwo.go
  split
  · exact nextPowerOfTwo_go_ge n (power * 2) (Nat.mul_pos h (by decide))
  · omega
termination_by n - power
decreasing_by simp_wf; apply Nat.nextPowerOfTwo_dec <;> assumption

/-- The value `nextPowerOfTwo n` is at least `n`. -/
theorem nextPowerOfTwo_ge (n : Nat) : n ≤ Nat.nextPowerOfTwo n :=
  nextPowerOfTwo_go_ge n 1 (by decide)

/-- The constant `u32size` is `2^32`. -/
theorem u32size_eq : u32size = 2 ^ 32 := by norm_num [u32size]

/-- A freshly constructed buffer whose slot count fits in 32 bits
satisfies the ring invariant (with `j = 0` published values). -/
theorem ringInv_init {T : Type} [Inhabited T] (c : Nat) (rb : RingBuffer T)
    (h : RingBuffer.new (T := T) c = some rb)
    (hle : rb.n + 1 ≤ u32size) : RingInv rb := by
  simp only [RingBuffer.new] at h
  split_ifs at h with hc
  simp only [Option.some.injEq] at h
  subst h
  simp only [] at hle ⊢
  set N := Nat.nextPowerOfTwo (c + 1) with hN
  have hN2 : 2 ≤ N := le_trans (by omega) (nextPowerOfTwo_ge (c + 1))
  obtain ⟨k, hk⟩ : ∃ k, N = 2 ^ k := Nat.isPowerOfTwo_nextPowerOfTwo (c + 1)
  have hsub : N - 1 + 1 = N := by omega
  have hleN : N ≤ u32size := by omega
  refine ⟨0, ?_, ?_, ?_, ?_, ?_, ?_, ?_, ?_⟩
  all_goals simp only []
  · omega
  · simp [hsub]
  · omega
  · rw [hsub, u32size_eq, hk]
    have hk32 : (2 : Nat) ^ k ≤ 2 ^ 32 := by
      rw [← hk, ← u32size_eq]
      exact hleN
    exact pow_dvd_pow 2 ((Nat.pow_le_pow_iff_right (a := 2) (by omega)).mp hk32)
  · intro x
    rw [hsub, hk, land_mask]
  · rw [u32size_eq]
    positivity
  · simp
  · intro i hi
    rw [hsub] at hi ⊢
    simp only [slotSeq, List.getElem?_map, List.getElem?_range, Cell.new,
      Nat.zero_add, Nat.mod_eq_of_lt hi, hi, if_true, Option.map_some, reduceIte]
    simp [Nat.mod_eq_of_lt hi, hi]

/-- The constant `u32size` is positive. -/
theorem u32size_pos : 0 < u32size := by rw [u32size_eq]; positivity

/-- The operation `send` preserves the ring invariant. -/
theorem ringInv_send {T : Type} (rb rb' : RingBuffer T) (d : T) (b : Bool)
    (hInv : RingInv rb) (h : rb.send d = some (b, rb')) : RingInv rb' := by
  obtain ⟨j, hj, hlen, hn1, hdvd, hmask, hd, he, hslots⟩ := hInv
  have hu : 0 < u32size := u32size_pos
  have hNpos : 0 < rb.n + 1 := by omega
  have hidx : rb.enq_pos &&& rb.n = (rb.deq_pos + j) % (rb.n + 1) := by
    rw [hmask, he, Nat.mod_mod_of_dvd _ hdvd]
  by_cases hjN : j < rb.n + 1
  · -- a free slot: the send claims it
    have hslot := hslots j hjN
    rw [if_neg (lt_irrefl j), slotSeq] at hslot
    obtain ⟨cell, hcell, hcpos⟩ := Option.map_eq_some'.mp hslot
    simp only [RingBuffer.send, hidx, hcell] at h
    rw [hcpos, he, if_pos (i32sub_self ((rb.deq_pos + j) % u32size))] at h
    simp only [Option.some.injEq, Prod.mk.injEq] at h
    obtain ⟨hb, hrb'⟩ := h
    subst hrb'
    refine ⟨j + 1, ?_, ?_, ?_, ?_, ?_, ?_, ?_, ?_⟩
    all_goals simp only []
    · omega
    · rw [List.length_set]; exact hlen
    · exact hn1
    · exact hdvd
    · exact hmask
    · exact hd
    · rw [addl_mod_mod (rb.deq_pos + j) 1 u32size u32size dvd_rfl, Nat.add_assoc]
    · intro k hk
      by_cases hkj : k = j
      · subst hkj
        rw [slotSeq, List.getElem?_set_eq_of_lt _ (by rw [hlen]; exact Nat.mod_lt _ hNpos)]
        rw [if_pos (by omega : k < k + 1)]
        simp only [Option.map_some']
        rw [addl_mod_mod (rb.deq_pos + k) 1 u32size u32size dvd_rfl, Nat.add_assoc]
      · have hne : (rb.deq_pos + j) % (rb.n + 1) ≠ (rb.deq_pos + k) % (rb.n + 1) :=
          fun hEq => hkj (add_mod_inj_of_lt hjN hk hEq).symm
        rw [slotSeq, List.getElem?_set_ne hne]
        rw [show ((rb.v[(rb.deq_pos + k) % (rb.n + 1)]?).map Cell.pos) =
          slotSeq rb ((rb.deq_pos + k) % (rb.n + 1)) from rfl, hslots k hk]
        have hkj' : k ≠ j := hkj
        split_ifs <;> first | rfl | omega
  · -- buffer full: the send fails and leaves the state unchanged
    have hslot := hslots 0 hNpos
    rw [if_pos (by omega : 0 < j), slotSeq] at hslot
    obtain ⟨cell, hcell, hcpos⟩ := Option.map_eq_some'.mp hslot
    have hidx0 : (rb.deq_pos + j) % (rb.n + 1) = (rb.deq_pos + 0) % (rb.n + 1) := by
      rw [show j = rb.n + 1 by omega]
      simp [Nat.add_mod_right]
    simp only [RingBuffer.send, hidx, hidx0, hcell] at h
    have hne : ¬ i32sub cell.pos rb.enq_pos = 0 := by
      rw [hcpos, he]
      intro hEq
      have h2 := (i32sub_eq_zero_iff (Nat.mod_lt _ hu) (Nat.mod_lt _ hu)).mp hEq
      rw [show j = rb.n + 1 by omega] at h2
      by_cases hNM : rb.n + 1 = u32size
      · rw [hNM, Nat.add_mod_right] at h2
        rw [show rb.deq_pos % u32size = (rb.deq_pos + 0) % u32size by rw [Nat.add_zero]] at h2
        have h10 := add_mod_inj_of_lt (show 1 < u32size by rw [u32size_eq]; norm_num)
          (show 0 < u32size from hu) h2
        omega
      · have hNltM : rb.n + 1 < u32size := by
          have := Nat.le_of_dvd hu hdvd
          omega
        have h1N := add_mod_inj_of_lt (show 1 < u32size by rw [u32size_eq]; norm_num)
          hNltM h2
        omega
    rw [if_neg hne] at h
    split_ifs at h with hlt
    simp only [Option.some.injEq, Prod.mk.injEq] at h
    obtain ⟨hb, hrb'⟩ := h
    subst hrb'
    exact ⟨j, hj, hlen, hn1, hdvd, hmask, hd, he, hslots⟩

/-- The operation `recv` preserves the ring invariant. -/
theorem ringInv_recv {T : Type} (rb rb' : RingBuffer T) (r : Except Bool T)
    (hInv : RingInv rb) (h : rb.recv = some (r, rb')) : RingInv rb' := by
  obtain ⟨j, hj, hlen, hn1, hdvd, hmask, hd, he, hslots⟩ := hInv
  have hu : 0 < u32size := u32size_pos
  have hNpos : 0 < rb.n + 1 := by omega
  have hnM : rb.n + 1 ≤ u32size := Nat.le_of_dvd hu hdvd
  have hidx : rb.deq_pos &&& rb.n = (rb.deq_pos + 0) % (rb.n + 1) := by
    rw [hmask]
    simp
  have hslot := hslots 0 hNpos
  rw [slotSeq] at hslot
  obtain ⟨cell, hcell, hcpos⟩ := Option.map_eq_some'.mp hslot
  simp only [RingBuffer.recv, hidx, hcell] at h
  by_cases hj0 : 0 < j
  · -- a value is published at the dequeue position: the recv claims it
    rw [if_pos hj0, Nat.add_zero] at hcpos
    rw [hcpos, if_pos (i32sub_self _)] at h
    simp only [Option.some.injEq, Prod.mk.injEq] at h
    obtain ⟨hr, hrb'⟩ := h
    subst hrb'
    refine ⟨j - 1, ?_, ?_, ?_, ?_, ?_, ?_, ?_, ?_⟩
    all_goals simp only []
    · omega
    · rw [List.length_set]; exact hlen
    · exact hn1
    · exact hdvd
    · exact hmask
    · exact Nat.mod_lt _ hu
    · rw [he]
      unfold u32size
      omega
    · intro k hk
      have hidxk : ((rb.deq_pos + 1) % u32size + k) % (rb.n + 1) =
          (rb.deq_pos + (1 + k)) % (rb.n + 1) := by
        rw [addl_mod_mod (rb.deq_pos + 1) k u32size (rb.n + 1) hdvd, Nat.add_assoc]
      rw [slotSeq, hidxk]
      by_cases hkN : k = rb.n
      · subst hkN
        have hwrap : (rb.deq_pos + (1 + rb.n)) % (rb.n + 1) =
            (rb.deq_pos + 0) % (rb.n + 1) := by
          rw [show 1 + rb.n = rb.n + 1 by omega, Nat.add_mod_right]
          simp
        rw [hwrap, List.getElem?_set_eq_of_lt _ (by rw [hlen]; exact Nat.mod_lt _ hNpos)]
        simp only [Option.map_some', Option.some.injEq]
        rw [if_neg (by omega : ¬ rb.n < j - 1)]
        unfold u32size at hnM ⊢
        omega
      · have hne : (rb.deq_pos + 0) % (rb.n + 1) ≠ (rb.deq_pos + (1 + k)) % (rb.n + 1) := by
          intro hEq
          have := add_mod_inj_of_lt hNpos (by omega : 1 + k < rb.n + 1) hEq
          omega
        rw [List.getElem?_set_ne hne]
        have hold := hslots (1 + k) (by omega)
        rw [slotSeq] at hold
        rw [hold]
        simp only [Option.some.injEq]
        split_ifs with h1 h2 <;> unfold u32size <;> omega
  · -- nothing published: the recv fails and leaves the state unchanged
    rw [if_neg hj0] at hcpos
    have hne : ¬ i32sub cell.pos ((rb.deq_pos + 1) % u32size) = 0 := by
      rw [hcpos]
      intro hEq
      have h2 := (i32sub_eq_zero_iff (Nat.mod_lt _ hu) (Nat.mod_lt _ hu)).mp hEq
      have := add_mod_inj_of_lt (show 0 < u32size from hu)
        (show 1 < u32size by rw [u32size_eq]; norm_num) h2
      omega
    rw [if_neg hne] at h
    split_ifs at h with hlt
    simp only [Option.some.injEq, Prod.mk.injEq] at h
    obtain ⟨hr, hrb'⟩ := h
    subst hrb'
    exact ⟨j, hj, hlen, hn1, hdvd, hmask, hd, he, hslots⟩

/-- The operation `send` never changes the stored mask `n`. -/
theorem send_preserves_n {T : Type} (rb rb' : RingBuffer T) (d : T) (b : Bool)
    (h : rb.send d = some (b, rb')) : rb'.n = rb.n := by
  simp only [RingBuffer.send] at h
  cases hget : rb.v[rb.enq_pos &&& rb.n]? with
  | none => rw [hget] at h; exact absurd h (by simp)
  | some cell =>
    rw [hget] at h
    simp only [] at h
    split_ifs at h <;> simp only [Option.some.injEq, Prod.mk.injEq] at h <;>
      obtain ⟨h1, h2⟩ := h <;> subst h2 <;> rfl

/-- The operation `recv` never changes the stored mask `n`. -/
theorem recv_preserves_n {T : Type} (rb rb' : RingBuffer T) (r : Except Bool T)
    (h : rb.recv = some (r, rb')) : rb'.n = rb.n := by
  simp only [RingBuffer.recv] at h
  cases hget : rb.v[rb.deq_pos &&& rb.n]? with
  | none => rw [hget] at h; exact absurd h (by simp)
  | some cell =>
    rw [hget] at h
    simp only [] at h
    split_ifs at h <;> simp only [Option.some.injEq, Prod.mk.injEq] at h <;>
      obtain ⟨h1, h2⟩ := h <;> subst h2 <;> rfl

/-- Every reachable state keeps the mask fixed by construction and,
whenever the slot count fits in 32 bits, satisfies the ring invariant. -/
theorem reachable_props {T : Type} [Inhabited T] (c : Nat) (rb : RingBuffer T)
    (h : Reachable c rb) :
    rb.n = Nat.nextPowerOfTwo (c + 1) - 1 ∧ (rb.n + 1 ≤ u32size → RingInv rb) := by
  induction h with
  | init rb h0 =>
    constructor
    · have h1 := h0
      simp only [RingBuffer.new] at h1
      split_ifs at h1 with hc
      simp only [Option.some.injEq] at h1
      subst h1
      rfl
    · intro hle
      exact ringInv_init c rb h0 hle
  | send rb d b rb' hr hstep ih =>
    have hn := send_preserves_n rb rb' d b hstep
    constructor
    · rw [hn]
      exact ih.1
    · intro hle
      rw [hn] at hle
      exact ringInv_send rb rb' d b (ih.2 hle) hstep
  | recv rb r rb' hr hstep ih =>
    have hn := recv_preserves_n rb rb' r hstep
    constructor
    · rw [hn]
      exact ih.1
    · intro hle
      rw [hn] at hle
      exact ringInv_recv rb rb' r (ih.2 hle) hstep

/-- Reachability forces a positive requested capacity. -/
theorem reachable_cap_pos {T : Type} [Inhabited T] {c : Nat} {rb : RingBuffer T}
    (h : Reachable c rb) : 0 < c := by
  induction h with
  | init rb h0 =>
    by_contra hc
    simp only [RingBuffer.new, if_neg (show ¬ 0 < c by omega)] at h0
    exact absurd h0 (by simp)
  | send rb d b rb' hr hstep ih => exact ih
  | recv rb r rb' hr hstep ih => exact ih

/-- C9: in every state reachable from a freshly created buffer by any
sequence of `send`, `recv` and `empty` calls, the slot count is
`N = n + 1 = nextPowerOfTwo (c+1)` and the wraparound difference
`enqueueCursor - dequeueCursor` lies between `0` and `N` inclusive:
the buffer never holds more than `N` values and the dequeue cursor
never overtakes the enqueue cursor. -/
theorem cursor_distance_invariant {T : Type} [Inhabited T] (c : Nat)
    (rb : RingBuffer T) (h : Reachable c rb) :
    rb.n + 1 = Nat.nextPowerOfTwo (c + 1) ∧
    (rb.enq_pos + u32size - rb.deq_pos) % u32size ≤ rb.n + 1 := by
  obtain ⟨hn, hinv⟩ := reachable_props c rb h
  have hcpos : 0 < c := reachable_cap_pos h
  have hge : c + 1 ≤ Nat.nextPowerOfTwo (c + 1) := nextPowerOfTwo_ge (c + 1)
  constructor
  · omega
  · by_cases hle : rb.n + 1 ≤ u32size
    · obtain ⟨j, hj, hlen, hn1, hdvd, hmask, hd, he, hslots⟩ := hinv hle
      rw [he]
      unfold u32size at hd hle ⊢
      omega
    · have hmod : (rb.enq_pos + u32size - rb.deq_pos) % u32size < u32size :=
        Nat.mod_lt _ u32size_pos
      omega

/-- Witness for C9 at the freshly created capacity-3 buffer. -/
theorem cursor_distance_invariant_witness :
    (⟨3, [⟨0, 0⟩, ⟨1, 0⟩, ⟨2, 0⟩, ⟨3, 0⟩], 0, 0, ⟨1, 1⟩⟩ : RingBuffer Nat).n + 1 =
      Nat.nextPowerOfTwo (3 + 1) ∧
    ((⟨3, [⟨0, 0⟩, ⟨1, 0⟩, ⟨2, 0⟩, ⟨3, 0⟩], 0, 0, ⟨1, 1⟩⟩ : RingBuffer Nat).enq_pos +
        u32size -
        (⟨3, [⟨0, 0⟩, ⟨1, 0⟩, ⟨2, 0⟩, ⟨3, 0⟩], 0, 0, ⟨1, 1⟩⟩ : RingBuffer Nat).deq_pos) %
      u32size ≤
      (⟨3, [⟨0, 0⟩, ⟨1, 0⟩, ⟨2, 0⟩, ⟨3, 0⟩], 0, 0, ⟨1, 1⟩⟩ : RingBuffer Nat).n + 1 :=
  cursor_distance_invariant 3
    (⟨3, [⟨0, 0⟩, ⟨1, 0⟩, ⟨2, 0⟩, ⟨3, 0⟩], 0, 0, ⟨1, 1⟩⟩ : RingBuffer Nat)
    (Reachable.init _ new_three_eq)

namespace Concurrent

/-- No step ever decreases the ghost enqueue counter. -/
theorem step_genq_mono {T : Type} {s s' : Sys T} {l : Label}
    (h : Step s l s') : s.genq ≤ s'.genq := by
  cases h <;> simp only [] <;> omega

/-- No step ever decreases the ghost dequeue counter. -/
theorem step_gdeq_mono {T : Type} {s s' : Sys T} {l : Label}
    (h : Step s l s') : s.gdeq ≤ s'.gdeq := by
  cases h <;> simp only [] <;> omega

/-- A `sendClaim` label claims exactly the current ghost enqueue
counter and increments it: the CAS hands out absolute positions one by
one. -/
theorem step_send_abs {T : Type} {s s' : Sys T} {tid a : Nat}
    (h : Step s (.sendClaim tid a) s') : a = s.genq ∧ s'.genq = s.genq + 1 := by
  cases h
  exact ⟨rfl, rfl⟩

/-- A `recvClaim` label claims exactly the current ghost dequeue
counter and increments it. -/
theorem step_recv_abs {T : Type} {s s' : Sys T} {tid a : Nat}
    (h : Step s (.recvClaim tid a) s') : a = s.gdeq ∧ s'.gdeq = s.gdeq + 1 := by
  cases h
  exact ⟨rfl, rfl⟩

/-- Every enqueue position claimed along a trace is at least the ghost
counter at the trace's start. -/
theorem trace_sendClaims_lb {T : Type} {s s'' : Sys T} {ls : List Label}
    (h : Trace s ls s'') : ∀ a ∈ sendClaims ls, s.genq ≤ a := by
  induction h with
  | nil s => simp [sendClaims]
  | cons s s' s'' l ls hstep htr ih =>
    intro a ha
    cases l with
    | sendClaim tid b =>
      rw [show sendClaims (Label.sendClaim tid b :: ls) = b :: sendClaims ls from rfl] at ha
      rcases List.mem_cons.mp ha with hab | hmem
      · subst hab
        exact le_of_eq (step_send_abs hstep).1.symm
      · have h1 := ih a hmem
        have h2 := step_genq_mono hstep
        omega
    | recvClaim tid b =>
      rw [show sendClaims (Label.recvClaim tid b :: ls) = sendClaims ls from rfl] at ha
      have h1 := ih a ha
      have h2 := step_genq_mono hstep
      omega
    | tau =>
      rw [show sendClaims (Label.tau :: ls) = sendClaims ls from rfl] at ha
      have h1 := ih a ha
      have h2 := step_genq_mono hstep
      omega

/-- Every dequeue position claimed along a trace is at least the ghost
counter at the trace's start. -/
theorem trace_recvClaims_lb {T : Type} {s s'' : Sys T} {ls : List Label}
    (h : Trace s ls s'') : ∀ a ∈ recvClaims ls, s.gdeq ≤ a := by
  induction h with
  | nil s => simp [recvClaims]
  | cons s s' s'' l ls hstep htr ih =>
    intro a ha
    cases l with
    | sendClaim tid b =>
      rw [show recvClaims (Label.sendClaim tid b :: ls) = recvClaims ls from rfl] at ha
      have h1 := ih a ha
      have h2 := step_gdeq_mono hstep
      omega
    | recvClaim tid b =>
      rw [show recvClaims (Label.recvClaim tid b :: ls) = b :: recvClaims ls from rfl] at ha
      rcases List.mem_cons.mp ha with hab | hmem
      · subst hab
        exact le_of_eq (step_recv_abs hstep).1.symm
      · have h1 := ih a hmem
        have h2 := step_gdeq_mono hstep
        omega
    | tau =>
      rw [show recvClaims (Label.tau :: ls) = recvClaims ls from rfl] at ha
      have h1 := ih a ha
      have h2 := step_gdeq_mono hstep
      omega

/-- The enqueue positions claimed along a trace are strictly increasing. -/
theorem trace_sendClaims_sorted {T : Type} {s s'' : Sys T} {ls : List Label}
    (h : Trace s ls s'') : List.Pairwise (· < ·) (sendClaims ls) := by
  induction h with
  | nil s => simp [sendClaims]
  | cons s s' s'' l ls hstep htr ih =>
    cases l with
    | sendClaim tid b =>
      rw [show sendClaims (Label.sendClaim tid b :: ls) = b :: sendClaims ls from rfl]
      refine List.Pairwise.cons ?_ ih
      intro a ha
      have h1 := step_send_abs hstep
      have h2 := trace_sendClaims_lb htr a ha
      omega
    | recvClaim tid b =>
      rw [show sendClaims (Label.recvClaim tid b :: ls) = sendClaims ls from rfl]
      exact ih
    | tau =>
      rw [show sendClaims (Label.tau :: ls) = sendClaims ls from rfl]
      exact ih

/-- The dequeue positions claimed along a trace are strictly increasing. -/
theorem trace_recvClaims_sorted {T : Type} {s s'' : Sys T} {ls : List Label}
    (h : Trace s ls s'') : List.Pairwise (· < ·) (recvClaims ls) := by
  induction h with
  | nil s => simp [recvClaims]
  | cons s s' s'' l ls hstep htr ih =>
    cases l with
    | sendClaim tid b =>
      rw [show recvClaims (Label.sendClaim tid b :: ls) = recvClaims ls from rfl]
      exact ih
    | recvClaim tid b =>
      rw [show recvClaims (Label.recvClaim tid b :: ls) = b :: recvClaims ls from rfl]
      refine List.Pairwise.cons ?_ ih
      intro a ha
      have h1 := step_recv_abs hstep
      have h2 := trace_recvClaims_lb htr a ha
      omega
    | tau =>
      rw [show recvClaims (Label.tau :: ls) = recvClaims ls from rfl]
      exact ih

/-- C10: claim uniqueness under concurrency.  In every interleaved
execution, with any number of producer and consumer threads, no two
successful enqueue CASes claim the same absolute position and no two
successful dequeue CASes claim the same absolute position — so no slot
is ever written by two producers claiming one position, or read by two
consumers claiming one position. -/
theorem cas_claim_uniqueness {T : Type} (s s'' : Sys T) (ls : List Label)
    (h : Trace s ls s'') :
    List.Pairwise (· ≠ ·) (sendClaims ls) ∧
    List.Pairwise (· ≠ ·) (recvClaims ls) :=
  ⟨(trace_sendClaims_sorted h).imp Nat.ne_of_lt,
   (trace_recvClaims_sorted h).imp Nat.ne_of_lt⟩

end Concurrent

/-- Witness for C10: a two-producer interleaving in which both CASes
succeed; the claimed absolute positions `0` and `1` are distinct. -/
theorem cas_claim_uniqueness_witness :
    List.Pairwise (· ≠ ·) (Concurrent.sendClaims
      [Concurrent.Label.sendClaim 0 0, Concurrent.Label.sendClaim 1 1]) ∧
    List.Pairwise (· ≠ ·) (Concurrent.recvClaims
      [Concurrent.Label.sendClaim 0 0, Concurrent.Label.sendClaim 1 1]) :=
  Concurrent.cas_claim_uniqueness
    (⟨3, [⟨0, 0⟩, ⟨1, 0⟩, ⟨2, 0⟩, ⟨3, 0⟩], 0, 0, 0, 0,
      fun t => if t = 0 then some (.atCas 11 0)
        else if t = 1 then some (.atCas 22 1) else none,
      fun _ => none⟩ : Concurrent.Sys Nat) _ _
    (Concurrent.Trace.cons _ _ _ _ _
      (Concurrent.Step.pCasOk _ 0 11 0 rfl rfl)
      (Concurrent.Trace.cons _ _ _ _ _
        (Concurrent.Step.pCasOk _ 1 22 1 rfl rfl)
        (Concurrent.Trace.nil _)))

/-- Witness for C7 at the freshly created capacity-3 buffer (registry
one sender, one receiver). -/
theorem contract_violations_are_fatal_witness :
    RingBuffer.new (T := Nat) 0 = none ∧
    ((⟨3, [⟨0, 0⟩, ⟨1, 0⟩, ⟨2, 0⟩, ⟨3, 0⟩], 0, 0, ⟨1, 1⟩⟩ : RingBuffer Nat).cloneSender =
        none ↔
      (⟨3, [⟨0, 0⟩, ⟨1, 0⟩, ⟨2, 0⟩, ⟨3, 0⟩], 0, 0, ⟨1, 1⟩⟩ : RingBuffer Nat).users.senders =
        0) ∧
    ((⟨3, [⟨0, 0⟩, ⟨1, 0⟩, ⟨2, 0⟩, ⟨3, 0⟩], 0, 0, ⟨1, 1⟩⟩ : RingBuffer Nat).cloneReceiver =
        none ↔
      (⟨3, [⟨0, 0⟩, ⟨1, 0⟩, ⟨2, 0⟩, ⟨3, 0⟩], 0, 0, ⟨1, 1⟩⟩ : RingBuffer Nat).users.receivers =
        0) ∧
    ((⟨3, [⟨0, 0⟩, ⟨1, 0⟩, ⟨2, 0⟩, ⟨3, 0⟩], 0, 0, ⟨1, 1⟩⟩ : RingBuffer Nat).dropSender =
        none ↔
      (⟨3, [⟨0, 0⟩, ⟨1, 0⟩, ⟨2, 0⟩, ⟨3, 0⟩], 0, 0, ⟨1, 1⟩⟩ : RingBuffer Nat).users.senders =
        0) ∧
    ((⟨3, [⟨0, 0⟩, ⟨1, 0⟩, ⟨2, 0⟩, ⟨3, 0⟩], 0, 0, ⟨1, 1⟩⟩ : RingBuffer Nat).dropReceiver =
        none ↔
      (⟨3, [⟨0, 0⟩, ⟨1, 0⟩, ⟨2, 0⟩, ⟨3, 0⟩], 0, 0, ⟨1, 1⟩⟩ : RingBuffer Nat).users.receivers =
        0) ∧
    ((⟨3, [⟨0, 0⟩, ⟨1, 0⟩, ⟨2, 0⟩, ⟨3, 0⟩], 0, 0, ⟨1, 1⟩⟩ : RingBuffer Nat).dropBuffer =
        none ↔
      (⟨3, [⟨0, 0⟩, ⟨1, 0⟩, ⟨2, 0⟩, ⟨3, 0⟩], 0, 0, ⟨1, 1⟩⟩ : RingBuffer Nat).users.senders ≠
          0 ∨
        (⟨3, [⟨0, 0⟩, ⟨1, 0⟩, ⟨2, 0⟩, ⟨3, 0⟩], 0, 0,
            ⟨1, 1⟩⟩ : RingBuffer Nat).users.receivers ≠ 0) :=
  contract_violations_are_fatal
    (⟨3, [⟨0, 0⟩, ⟨1, 0⟩, ⟨2, 0⟩, ⟨3, 0⟩], 0, 0, ⟨1, 1⟩⟩ : RingBuffer Nat)
